import Mathlib

/-!
Verification of the `ovus` HTML comment pipeline.

The development shallowly embeds two JavaScript classes:

* `CommentScanner` from `src/lib/io/file-reader.js` — splits an HTML
  document string into comment / non-comment segments, tracking quoted
  string regions and a toggle-style backslash escape flag.
* `CommentTransformer` (the completed draft of
  `lib/parsing/comment-transformer.js`) — parses one HTML comment's text
  into a template directive `{name, properties}` or `null`.

Strings are modelled as `List Char`.  JavaScript quirks that matter are
modelled explicitly and noted at the definition concerned: the scanner
stores `#scanComment`'s `newPos: null` unchecked, and every later read of
the null position coerces it to `0`; the segment pushed then carries a
`null` text, modelled as `Option` below.
-/

set_option maxRecDepth 4000

deriving instance DecidableEq for Except

namespace Ovus

/-- Apostrophe character (the single-quote recognised by both classes). -/
def squote : Char := Char.ofNat 39

/-- A scanned segment, `{ comment: boolean, text: string }`.  The `text`
field is an `Option` because `CommentScanner.scan` pushes
`{ comment: true, text: null }` when `#scanComment` finds no match. -/
structure Segment where
  comment : Bool
  text : Option (List Char)
deriving Repr, DecidableEq

/-- Mutable state of the `scan()` while-loop: cursor, the two flags and
the accumulating current segment, plus the emitted segments. -/
structure ScanState where
  pos : Nat
  inString : Bool
  stringEscape : Bool
  currentSegment : List Char
  segments : List Segment
deriving Repr, DecidableEq

/-- State right after `load(text)`: cursor `0`, flags clear, nothing
accumulated or emitted. -/
def initState : ScanState := ⟨0, false, false, [], []⟩

/-- Line terminators that JavaScript's regexp `.` refuses to match. -/
def isLineTerminator (c : Char) : Bool :=
  c.toNat = 10 || c.toNat = 13 || c.toNat = 0x2028 || c.toNat = 0x2029

/-- Lazy search of the `.*?-->` tail of `#scanComment`'s pattern
`/^<!--.*?-->/`: the shortest run of non-line-terminator characters after
which the literal `-->` appears.  Returns the length of that run. -/
def findClose : List Char → Option Nat
  | [] => none
  | c :: rest =>
    if (c :: rest).take 3 = "-->".toList then some 0
    else if isLineTerminator c then none
    else (findClose rest).map (· + 1)

/-- Length of the match of `/^<!--.*?-->/` against `l`
(`CommentScanner.#scanComment`), if any. -/
def commentMatchLen (l : List Char) : Option Nat :=
  if l.take 4 = "<!--".toList then
    (findClose (l.drop 4)).map (fun k => 4 + k + 3)
  else none

/-- `CommentScanner.#commentNext`: the four characters at the cursor are
exactly `<!--`. -/
def commentNext (text : List Char) (pos : Nat) : Bool :=
  (text.drop pos).take 4 = "<!--".toList

/-- One iteration of the `scan()` while-loop body (assuming the loop
condition `pos < text.length` holds, so `charAt` hits a real character).
The branch structure mirrors the source: a `<` outside a string probes
for a comment and otherwise falls through to the default append; `\`
toggles the escape flag, emitting the backslash only when already
escaped; a quote toggles `inString` unless escaped; anything else is
appended verbatim. -/
def scanStep (text : List Char) (st : ScanState) : ScanState :=
  let c := text.getD st.pos (Char.ofNat 0)
  let appendChar : ScanState :=
    { st with pos := st.pos + 1, currentSegment := st.currentSegment ++ [c] }
  if c = '<' ∧ st.inString = false then
    if commentNext text st.pos then
      match commentMatchLen (text.drop st.pos) with
      | some len =>
        { st with
          pos := st.pos + len
          currentSegment := []
          segments := st.segments ++
            [⟨false, some st.currentSegment⟩,
             ⟨true, some ((text.drop st.pos).take len)⟩] }
      | none =>
        -- #scanComment returned { text: null, newPos: null }; scan() stores
        -- both unchecked.  The null position coerces to 0 at every later
        -- read, and the pushed comment segment carries a null text.
        { st with
          pos := 0
          currentSegment := []
          segments := st.segments ++
            [⟨false, some st.currentSegment⟩, ⟨true, none⟩] }
    else appendChar
  else if c = '\\' then
    { st with
      pos := st.pos + 1
      currentSegment :=
        if st.stringEscape then st.currentSegment ++ [c] else st.currentSegment
      stringEscape := !st.stringEscape }
  else if c = '"' ∨ c = squote then
    { st with
      pos := st.pos + 1
      currentSegment := st.currentSegment ++ [c]
      inString := if st.stringEscape then st.inString else !st.inString
      stringEscape := if st.stringEscape then false else st.stringEscape }
  else appendChar

/-- The `scan()` while-loop, with explicit fuel: `none` models a run that
has not terminated within `fuel` iterations (the loop can genuinely
diverge, see the unterminated-comment theorems).  On exit the non-empty
remaining segment is flushed as a non-comment segment. -/
def scanLoop (text : List Char) : Nat → ScanState → Option (List Segment)
  | 0, _ => none
  | fuel + 1, st =>
    if st.pos < text.length then scanLoop text fuel (scanStep text st)
    else
      some (st.segments ++
        if st.currentSegment.length > 0 then [⟨false, some st.currentSegment⟩] else [])

/-- `scan()` on freshly loaded `text`.  `text.length + 1` iterations are
enough fuel for every straight left-to-right pass (each iteration advances
the cursor); runs that take the unmatched-comment branch may return
`none` (non-termination). -/
def scan (text : List Char) : Option (List Segment) :=
  scanLoop text (text.length + 1) initState

/-- Concatenation of all segment texts, a null text contributing nothing. -/
def concatTexts (segs : List Segment) : List Char :=
  (segs.map (fun s => s.text.getD [])).flatten

/-! ## CommentTransformer (completed draft of `lib/parsing/comment-transformer.js`) -/

/-- Error taxonomy of `CommentTransformer.transform()`: one constructor
per distinct `throw` site. -/
inductive TError where
  | missingOpenDelimiter
  | invalidName
  | invalidPropertyName
  | missingEquals
  | missingOpenQuote
  | unterminatedValue
  | unterminatedComment
  | missingCloseDelimiter
deriving Repr, DecidableEq

/-- The transformer's output record `{ name, properties }`; `properties`
is an ordered list of key/value pairs (duplicates allowed). -/
structure Directive where
  name : List Char
  properties : List (List Char × List Char)
deriving Repr, DecidableEq

/-- JavaScript's `\s` character class, used by `#skipSpace`. -/
def isJsSpace (c : Char) : Bool :=
  let n := c.toNat
  n = 32 || n = 9 || n = 10 || n = 11 || n = 12 || n = 13 ||
  n = 0xA0 || n = 0x1680 || (0x2000 ≤ n && n ≤ 0x200A) ||
  n = 0x2028 || n = 0x2029 || n = 0x202F || n = 0x205F || n = 0x3000 || n = 0xFEFF

/-- Number of characters `#skipSpace` advances over from the front of
the remaining text. -/
def skipSpaceCount : List Char → Nat
  | [] => 0
  | c :: rest => if isJsSpace c then skipSpaceCount rest + 1 else 0

/-- Start character of a template name: the anchored `^[a-z]` with the
`i` flag, so ASCII letters of either case. -/
def nameStartChar (c : Char) : Bool :=
  decide ((97 ≤ c.toNat ∧ c.toNat ≤ 122) ∨ (65 ≤ c.toNat ∧ c.toNat ≤ 90))

/-- The character class of `#templateNameChar`:
`[a-z:_0-9.\-]` together with the listed 16-bit Unicode ranges. -/
def inNameRanges (n : Nat) : Bool :=
  decide ((97 ≤ n ∧ n ≤ 122) ∨ n = 58 ∨ n = 95 ∨ (48 ≤ n ∧ n ≤ 57) ∨ n = 46 ∨ n = 45 ∨
    (0xC0 ≤ n ∧ n ≤ 0xD6) ∨ (0xD8 ≤ n ∧ n ≤ 0xF6) ∨ (0xF8 ≤ n ∧ n ≤ 0x2FF) ∨
    (0x370 ≤ n ∧ n ≤ 0x37D) ∨ (0x37F ≤ n ∧ n ≤ 0x1FFF) ∨ (0x200C ≤ n ∧ n ≤ 0x200D) ∨
    (0x2070 ≤ n ∧ n ≤ 0x218F) ∨ (0x2C00 ≤ n ∧ n ≤ 0x2FEF) ∨ (0x3001 ≤ n ∧ n ≤ 0xD7FF) ∨
    (0xF900 ≤ n ∧ n ≤ 0xFDCF) ∨ (0xFDF0 ≤ n ∧ n ≤ 0xFFFD))

/-- Continuation character of a name.  The regex carries the `i` flag;
case-insensitivity is modelled as ASCII case folding (the only case
pairs the class's ASCII part has). -/
def nameChar (c : Char) : Bool :=
  inNameRanges c.toNat ||
    inNameRanges (if 65 ≤ c.toNat ∧ c.toNat ≤ 90 then c.toNat + 32 else c.toNat)

/-- The anchored name match of `#scanTemplateName` / `#scanPropertyName`:
a name-start character followed by the longest run of name characters;
`none` when the regex does not match at the cursor. -/
def scanName (l : List Char) : Option (List Char) :=
  match l with
  | [] => none
  | c :: rest => if nameStartChar c then some (c :: rest.takeWhile nameChar) else none

/-- The value-scanning loop of `#scanPropertyValue`, after the opening
quote: an unescaped opening-quote character ends the value (and is
consumed); an unescaped backslash sets the one-shot escape flag and is
not emitted; every other character is emitted and clears the flag.
Returns the value and the number of characters consumed (closing quote
included); `none` models reaching end of input with no closing quote. -/
def scanValueChars (q : Char) : Bool → List Char → Option (List Char × Nat)
  | _, [] => none
  | escaped, c :: rest =>
    if c = q ∧ escaped = false then some ([], 1)
    else if c = '\\' ∧ escaped = false then
      (scanValueChars q true rest).map (fun p => (p.1, p.2 + 1))
    else
      (scanValueChars q false rest).map (fun p => (c :: p.1, p.2 + 1))

/-- `#scanPropertyValue` minus the surrounding cursor bookkeeping: the
remaining text must start with a quote, then the loop above runs.
Returns the value and total characters consumed. -/
def scanPropertyValue (l : List Char) : Except TError (List Char × Nat) :=
  match l with
  | [] => Except.error TError.missingOpenQuote
  | q :: rest =>
    if q = '"' ∨ q = squote then
      match scanValueChars q false rest with
      | some (v, n) => Except.ok (v, n + 1)
      | none => Except.error TError.unterminatedValue
    else Except.error TError.missingOpenQuote

/-- `#scanProperty`: name, optional whitespace, `=`, optional whitespace,
quoted value.  Returns the pair and the number of characters consumed. -/
def scanProperty (l : List Char) : Except TError ((List Char × List Char) × Nat) :=
  match scanName l with
  | none => Except.error TError.invalidPropertyName
  | some nm =>
    let l1 := l.drop nm.length
    let s1 := skipSpaceCount l1
    match l1.drop s1 with
    | c :: l3 =>
      if c = '=' then
        let s2 := skipSpaceCount l3
        match scanPropertyValue (l3.drop s2) with
        | Except.ok (v, n) => Except.ok ((nm, v), nm.length + s1 + 1 + s2 + n)
        | Except.error e => Except.error e
      else Except.error TError.missingEquals
    | [] => Except.error TError.missingEquals

/-- The property loop of `transform()`: while the remaining text does not
start with `-->` and input remains, scan one property and skip trailing
whitespace.  Returns the properties pushed (in order), the characters
consumed, and the error that aborted the loop, if any — the pushes made
before a failure are kept, mirroring the in-place mutation of
`#templateData.properties`. -/
def scanProps (l : List Char) : List (List Char × List Char) × Nat × Option TError :=
  if hg : l.take 3 = "-->".toList ∨ l = [] then ([], 0, none)
  else
    match hp : scanProperty l with
    | Except.error e => ([], 0, some e)
    | Except.ok (pv, n) =>
      let s := skipSpaceCount (l.drop n)
      let r := scanProps (l.drop (n + s))
      (pv :: r.1, n + s + r.2.1, r.2.2)
termination_by l.length
decreasing_by
  simp only [List.length_drop]
  have hne : l ≠ [] := fun h => hg (Or.inr h)
  have hlen : 0 < l.length := List.length_pos.mpr hne
  have hn : 1 ≤ n := by
    unfold scanProperty at hp
    dsimp only at hp
    split at hp
    · exact absurd hp (by simp)
    · rename_i nm heq
      generalize List.drop (skipSpaceCount (List.drop nm.length l)) (List.drop nm.length l) = l2 at hp
      split at hp
      · split at hp
        · split at hp
          · simp only [Except.ok.injEq, Prod.mk.injEq] at hp
            omega
          · exact absurd hp (by simp)
        · exact absurd hp (by simp)
      · exact absurd hp (by simp)
  omega

/-- Fuel-indexed evaluator for `scanProps`, used to compute the
well-founded recursion on concrete inputs: with fuel at least the length
of the remaining text it agrees with `scanProps`
(theorem `scanProps_eq_fuel`). -/
def scanPropsFuel : Nat → List Char → List (List Char × List Char) × Nat × Option TError
  | 0, _ => ([], 0, none)
  | fuel + 1, l =>
    if l.take 3 = "-->".toList ∨ l = [] then ([], 0, none)
    else
      match scanProperty l with
      | Except.error e => ([], 0, some e)
      | Except.ok (pv, n) =>
        let s := skipSpaceCount (l.drop n)
        let r := scanPropsFuel fuel (l.drop (n + s))
        (pv :: r.1, n + s + r.2.1, r.2.2)

/-- `transform()` on a freshly loaded comment: the returned value
(`null` or the directive) together with the final cursor position; a
thrown `Error` is the `Except.error` case. -/
def transform (text : List Char) : Except TError (Option Directive × Nat) :=
  if text.take 4 = "<!--".toList then
    let s0 := skipSpaceCount (text.drop 4)
    let p1 := 4 + s0
    match text.drop p1 with
    | c :: _ =>
      if c = '@' then
        match scanName (text.drop (p1 + 1)) with
        | none => Except.error TError.invalidName
        | some nm =>
          let p2 := p1 + 1 + nm.length
          let s1 := skipSpaceCount (text.drop p2)
          let p3 := p2 + s1
          if text.length ≤ p3 then Except.error TError.unterminatedComment
          else
            match scanProps (text.drop p3) with
            | (_, _, some e) => Except.error e
            | (props, m, none) =>
              if (text.drop (p3 + m)).take 3 = "-->".toList then
                Except.ok (some ⟨nm, props⟩, p3 + m + 3)
              else Except.error TError.missingCloseDelimiter
      else Except.ok (none, p1)
    | [] => Except.ok (none, p1)
  else Except.error TError.missingOpenDelimiter

/-- The `#templateData` field observable after `transform()` returns or
throws on a freshly loaded instance: `null` until the template name has
been scanned, then the directive with every property pushed before the
call ended. -/
def templateDataAfter (text : List Char) : Option Directive :=
  if text.take 4 = "<!--".toList then
    let s0 := skipSpaceCount (text.drop 4)
    let p1 := 4 + s0
    match text.drop p1 with
    | c :: _ =>
      if c = '@' then
        match scanName (text.drop (p1 + 1)) with
        | none => none
        | some nm =>
          let p2 := p1 + 1 + nm.length
          let s1 := skipSpaceCount (text.drop p2)
          let p3 := p2 + s1
          if text.length ≤ p3 then some ⟨nm, []⟩
          else some ⟨nm, (scanProps (text.drop p3)).1⟩
      else none
    | [] => none
  else none

/-! ## Helper lemmas -/

/-- A successful `scanProperty` consumes at least one character (the
`=` alone guarantees it). -/
theorem scanProperty_consumed_pos (l : List Char) (pv : List Char × List Char) (n : Nat)
    (hp : scanProperty l = Except.ok (pv, n)) : 1 ≤ n := by
  unfold scanProperty at hp
  dsimp only at hp
  split at hp
  · exact absurd hp (by simp)
  · rename_i nm heq
    generalize List.drop (skipSpaceCount (List.drop nm.length l)) (List.drop nm.length l) = l2 at hp
    split at hp
    · split at hp
      · split at hp
        · simp only [Except.ok.injEq, Prod.mk.injEq] at hp
          omega
        · exact absurd hp (by simp)
      · exact absurd hp (by simp)
    · exact absurd hp (by simp)

/-- With enough fuel the fuel-indexed evaluator computes `scanProps`. -/
theorem scanPropsFuel_eq (fuel : Nat) (l : List Char) (h : l.length ≤ fuel) :
    scanPropsFuel fuel l = scanProps l := by
  induction fuel generalizing l with
  | zero =>
    have hl : l = [] := List.eq_nil_of_length_eq_zero (Nat.le_zero.mp h)
    subst hl
    rw [scanProps]
    simp [scanPropsFuel]
  | succ fuel ih =>
    rw [scanProps, scanPropsFuel]
    split
    · rfl
    · rename_i hg
      cases hp : scanProperty l with
      | error e => rfl
      | ok pn =>
        obtain ⟨pv, n⟩ := pn
        have hpos := scanProperty_consumed_pos l pv n hp
        have hne : l ≠ [] := fun hnil => hg (Or.inr hnil)
        have hlen : 0 < l.length := List.length_pos.mpr hne
        have hih : (l.drop (n + skipSpaceCount (l.drop n))).length ≤ fuel := by
          simp only [List.length_drop]
          omega
        simp only [ih _ hih]

/-- Computation rule for `scanProps` on concrete inputs. -/
theorem scanProps_eq_fuel (l : List Char) : scanProps l = scanPropsFuel l.length l :=
  (scanPropsFuel_eq l.length l le_rfl).symm

/-- Running the scan loop from a reset cursor against a text whose
leading `<!--` has no regexp match never terminates: the no-match branch
returns the cursor to position 0 with both flags clear, and the loop
repeats the same probe forever. -/
theorem scanLoop_unmatched (rest : List Char)
    (hm : commentMatchLen ('<' :: '!' :: '-' :: '-' :: rest) = none) :
    ∀ (fuel : Nat) (cur : List Char) (S : List Segment),
      scanLoop ('<' :: '!' :: '-' :: '-' :: rest) fuel ⟨0, false, false, cur, S⟩ = none := by
  intro fuel
  induction fuel with
  | zero => intro cur S; rfl
  | succ fuel ih =>
    intro cur S
    rw [scanLoop]
    rw [if_pos (by simp)]
    have hstep :
        scanStep ('<' :: '!' :: '-' :: '-' :: rest) ⟨0, false, false, cur, S⟩ =
          ⟨0, false, false, [], S ++ [⟨false, some cur⟩, ⟨true, none⟩]⟩ := by
      unfold scanStep
      simp [commentNext, hm, squote]
    rw [hstep]
    exact ih [] (S ++ [⟨false, some cur⟩, ⟨true, none⟩])

/-- C2: on input `<!--` (a comment opener whose `-->` never appears),
`scan()` does not fall through to ordinary accumulation: `#scanComment`'s
null result is stored unchecked, the cursor is reset to position 0 and
the loop re-runs forever, so no fuel makes the loop terminate. -/
theorem c2_unterminated_comment_loops :
    ∀ fuel : Nat, scanLoop ("<!--".toList) fuel initState = none := by
  intro fuel
  have h : "<!--".toList = '<' :: '!' :: '-' :: '-' :: ([] : List Char) := rfl
  rw [h]
  exact scanLoop_unmatched [] (by decide) fuel [] []

/-- C3 counterexample: `<!--\na\n-->` is never emitted as a comment
segment — `scan()` does not even terminate on this input, because the
comment-matching regexp's `.` refuses the newline in the body. -/
theorem c3_counterexample :
    ¬ ∃ (fuel : Nat) (segs : List Segment),
        scanLoop ("<!--\na\n-->".toList) fuel initState = some segs ∧
          Segment.mk true (some ("<!--\na\n-->".toList)) ∈ segs := by
  rintro ⟨fuel, segs, hrun, -⟩
  have h : "<!--\na\n-->".toList = '<' :: '!' :: '-' :: '-' :: "\na\n-->".toList := rfl
  rw [h] at hrun
  unfold initState at hrun
  rw [scanLoop_unmatched ("\na\n-->".toList) (by decide) fuel [] []] at hrun
  exact Option.noConfusion hrun

/-- C3 amended: the comment-close search does not span newlines — the
pattern's `.` excludes line terminators, so a `<!--` whose `-->` lies
beyond a newline produces no match (and `scan()` then never terminates,
through the unhandled no-match branch), while a single-line body is
matched and emitted whole. -/
theorem c3_no_newline_in_comment_body :
    commentMatchLen ("<!--\na\n-->".toList) = none ∧
      (∀ fuel : Nat, scanLoop ("<!--\na\n-->".toList) fuel initState = none) ∧
      commentMatchLen ("<!--a-->".toList) = some 8 ∧
      scan ("<!--a-->".toList) = some [⟨false, some []⟩, ⟨true, some ("<!--a-->".toList)⟩] := by
  refine ⟨by decide, fun fuel => ?_, by decide, by decide⟩
  have h : "<!--\na\n-->".toList = '<' :: '!' :: '-' :: '-' :: "\na\n-->".toList := rfl
  rw [h]
  exact scanLoop_unmatched ("\na\n-->".toList) (by decide) fuel [] []

/-- C4 counterexample: an input that begins with a complete comment does
get an empty non-comment segment pushed in front of the comment
segment. -/
theorem c4_counterexample :
    ¬ (∀ segs : List Segment,
        scan ("<!--x-->".toList) = some segs → Segment.mk false (some []) ∉ segs) := by
  intro h
  exact h [⟨false, some []⟩, ⟨true, some ("<!--x-->".toList)⟩] (by decide) (by decide)

/-- C4 amended: only the final flush suppresses an empty accumulating
segment; when a comment is scanned the accumulating segment is pushed
unconditionally, so an input beginning with a comment yields a leading
empty non-comment segment, while no empty segment appears at the end. -/
theorem c4_empty_segment_emission :
    (∀ (text : List Char) (st : ScanState) (fuel : Nat),
        ¬ st.pos < text.length → st.currentSegment = [] →
          scanLoop text (fuel + 1) st = some st.segments) ∧
      scan ("<!--x-->y".toList) =
        some [⟨false, some []⟩, ⟨true, some ("<!--x-->".toList)⟩, ⟨false, some ("y".toList)⟩] ∧
      scan ("y<!--x-->".toList) =
        some [⟨false, some ("y".toList)⟩, ⟨true, some ("<!--x-->".toList)⟩] := by
  refine ⟨fun text st fuel hpos hcur => ?_, by decide, by decide⟩
  rw [scanLoop, if_neg hpos, hcur]
  simp

/-- C4 witness: the flush conjunct of `c4_empty_segment_emission`
applied at end of input with an empty accumulating segment. -/
theorem c4_witness : scanLoop [] 1 initState = some initState.segments :=
  c4_empty_segment_emission.1 [] initState 0 (by decide) rfl

/-- C5: while the `inString` flag is set, a scan step never emits any
segment (the comment branch requires `inString` to be false), and a
comment-shaped substring inside a quoted region stays inside the
surrounding non-comment segment. -/
theorem c5_quoted_comment_not_emitted :
    (∀ (text : List Char) (st : ScanState), st.inString = true →
        (scanStep text st).segments = st.segments) ∧
      scan ("\"<!--x-->\"".toList) = some [⟨false, some ("\"<!--x-->\"".toList)⟩] := by
  refine ⟨fun text st h => ?_, by decide⟩
  unfold scanStep
  dsimp only
  rw [if_neg (by simp [h])]
  split
  · rfl
  · split
    · rfl
    · rfl

/-- C5 witness: a step taken with `inString` set emits nothing. -/
theorem c5_witness :
    (scanStep [] ⟨0, true, false, [], []⟩).segments = (⟨0, true, false, [], []⟩ : ScanState).segments :=
  c5_quoted_comment_not_emitted.1 [] ⟨0, true, false, [], []⟩ rfl
theorem scanStep_segments_mono (text : List Char) (st : ScanState) :
    ∃ t, (scanStep text st).segments = st.segments ++ t := by
  unfold scanStep
  dsimp only
  split
  · split
    · split <;> exact ⟨_, rfl⟩
    · exact ⟨[], by simp⟩
  · split
    · exact ⟨[], by simp⟩
    · split <;> exact ⟨[], by simp⟩

theorem scanLoop_segments_mono (text : List Char) :
    ∀ (fuel : Nat) (st : ScanState) (segs : List Segment),
      scanLoop text fuel st = some segs → ∃ t, segs = st.segments ++ t := by
  intro fuel
  induction fuel with
  | zero => intro st segs h; exact absurd h (by simp [scanLoop])
  | succ fuel ih =>
    intro st segs h
    rw [scanLoop] at h
    split at h
    · obtain ⟨t1, ht1⟩ := scanStep_segments_mono text st
      obtain ⟨t2, ht2⟩ := ih _ _ h
      exact ⟨t1 ++ t2, by rw [ht2, ht1, List.append_assoc]⟩
    · exact ⟨_, (Option.some.inj h).symm⟩

theorem scanStep_plain (text : List Char) (st : ScanState)
    (hno : ¬(text.getD st.pos (Char.ofNat 0) = '<' ∧ st.inString = false ∧
        commentNext text st.pos = true))
    (hbs : text.getD st.pos (Char.ofNat 0) ≠ '\\') :
    (scanStep text st).segments = st.segments ∧
      (scanStep text st).currentSegment =
        st.currentSegment ++ [text.getD st.pos (Char.ofNat 0)] ∧
      (scanStep text st).pos = st.pos + 1 := by
  unfold scanStep
  dsimp only
  by_cases h1 : text.getD st.pos (Char.ofNat 0) = '<' ∧ st.inString = false
  · rw [if_pos h1]
    have h2 : commentNext text st.pos = false := by
      cases hc : commentNext text st.pos
      · rfl
      · exact absurd ⟨h1.1, h1.2, hc⟩ hno
    rw [h2, if_neg Bool.false_ne_true]
    exact ⟨rfl, rfl, rfl⟩
  · rw [if_neg h1, if_neg hbs]
    by_cases hq : text.getD st.pos (Char.ofNat 0) = '"' ∨ text.getD st.pos (Char.ofNat 0) = squote
    · rw [if_pos hq]
      exact ⟨rfl, rfl, rfl⟩
    · rw [if_neg hq]
      exact ⟨rfl, rfl, rfl⟩

theorem findClose_le (l : List Char) (k : Nat) (h : findClose l = some k) :
    k + 3 ≤ l.length := by
  induction l generalizing k with
  | nil => exact absurd h (by simp [findClose])
  | cons c rest ih =>
    rw [findClose] at h
    split at h
    · rename_i h3
      obtain rfl := Option.some.inj h
      have h3l : (List.take 3 (c :: rest)).length = 3 := by rw [h3]; rfl
      simp only [List.length_take, List.length_cons] at h3l
      simp only [List.length_cons]
      omega
    · split at h
      · exact absurd h (by simp)
      · cases hf : findClose rest with
        | none => rw [hf] at h; simp at h
        | some k2 =>
          rw [hf] at h
          simp only [Option.map_some'] at h
          obtain rfl := Option.some.inj h
          have hk2 := ih k2 hf
          simp only [List.length_cons]
          omega

theorem commentMatchLen_le (l : List Char) (n : Nat) (h : commentMatchLen l = some n) :
    n ≤ l.length := by
  unfold commentMatchLen at h
  split at h
  · rename_i h4
    cases hf : findClose (l.drop 4) with
    | none => rw [hf] at h; simp at h
    | some k =>
      rw [hf] at h
      simp only [Option.map_some'] at h
      obtain rfl := Option.some.inj h
      have hk := findClose_le _ _ hf
      have h4len : (List.take 4 l).length = 4 := by rw [h4]; rfl
      simp only [List.length_take] at h4len
      simp only [List.length_drop] at hk
      omega
  · exact absurd h (by simp)

theorem concatTexts_append (a b : List Segment) :
    concatTexts (a ++ b) = concatTexts a ++ concatTexts b := by
  simp [concatTexts]
theorem take_succ_getD (text : List Char) (pos : Nat) (hpos : pos < text.length) :
    text.take (pos + 1) = text.take pos ++ [text.getD pos (Char.ofNat 0)] := by
  rw [List.take_succ, List.getElem?_eq_getElem hpos]
  simp [List.getD_eq_getElem?_getD, hpos]

theorem scanLoop_concat (text : List Char) (hnb : '\\' ∉ text) :
    ∀ (fuel : Nat) (st : ScanState) (segs : List Segment),
      concatTexts st.segments ++ st.currentSegment = text.take st.pos →
      scanLoop text fuel st = some segs →
      (∀ s ∈ segs, s.text ≠ none) →
      concatTexts segs = text := by
  intro fuel
  induction fuel with
  | zero => intro st segs _ hrun _; exact absurd hrun (by simp [scanLoop])
  | succ fuel ih =>
    intro st segs hinv hrun hnn
    rw [scanLoop] at hrun
    by_cases hpos : st.pos < text.length
    · rw [if_pos hpos] at hrun
      have hgetd : text.getD st.pos (Char.ofNat 0) = text[st.pos] := by
        simp [List.getD_eq_getElem?_getD, hpos]
      have hmem : text.getD st.pos (Char.ofNat 0) ∈ text := by
        rw [hgetd]; exact List.getElem_mem hpos
      have hbs : text.getD st.pos (Char.ofNat 0) ≠ '\\' := fun h => hnb (h ▸ hmem)
      by_cases h1 : text.getD st.pos (Char.ofNat 0) = '<' ∧ st.inString = false
      · cases h2 : commentNext text st.pos with
        | false =>
          have hplain := scanStep_plain text st
            (fun h => by rw [h2] at h; exact Bool.false_ne_true h.2.2) hbs
          refine ih (scanStep text st) segs ?_ hrun hnn
          rw [hplain.1, hplain.2.1, hplain.2.2, take_succ_getD text st.pos hpos,
            ← List.append_assoc, hinv]
        | true =>
          cases hm : commentMatchLen (text.drop st.pos) with
          | none =>
            have hstep : scanStep text st = ⟨0, st.inString, st.stringEscape, [],
                st.segments ++ [⟨false, some st.currentSegment⟩, ⟨true, none⟩]⟩ := by
              unfold scanStep
              dsimp only
              rw [if_pos h1, h2, if_pos rfl, hm]
            rw [hstep] at hrun
            obtain ⟨t, ht⟩ := scanLoop_segments_mono text fuel _ segs hrun
            have hmemseg : Segment.mk true none ∈ segs := by rw [ht]; simp
            exact absurd rfl (hnn _ hmemseg)
          | some len =>
            have hstep : scanStep text st = ⟨st.pos + len, st.inString, st.stringEscape, [],
                st.segments ++ [⟨false, some st.currentSegment⟩,
                  ⟨true, some ((text.drop st.pos).take len)⟩]⟩ := by
              unfold scanStep
              dsimp only
              rw [if_pos h1, h2, if_pos rfl, hm]
            rw [hstep] at hrun
            refine ih _ segs ?_ hrun hnn
            dsimp only
            rw [concatTexts_append, List.append_nil]
            have hc2 : concatTexts [⟨false, some st.currentSegment⟩,
                ⟨true, some ((text.drop st.pos).take len)⟩] =
                  st.currentSegment ++ (text.drop st.pos).take len := by
              simp [concatTexts]
            rw [hc2, ← List.append_assoc, hinv, ← List.take_add]
      · have hplain := scanStep_plain text st (fun h => h1 ⟨h.1, h.2.1⟩) hbs
        refine ih (scanStep text st) segs ?_ hrun hnn
        rw [hplain.1, hplain.2.1, hplain.2.2, take_succ_getD text st.pos hpos,
          ← List.append_assoc, hinv]
    · rw [if_neg hpos] at hrun
      have hsegs := Option.some.inj hrun
      subst hsegs
      have htake : text.take st.pos = text := List.take_of_length_le (Nat.le_of_not_lt hpos)
      rw [concatTexts_append]
      by_cases hcur : st.currentSegment.length > 0
      · rw [if_pos hcur]
        have hone : concatTexts [⟨false, some st.currentSegment⟩] = st.currentSegment := by
          simp [concatTexts]
        rw [hone, hinv, htake]
      · rw [if_neg hcur]
        have hc0 : st.currentSegment = [] := List.length_eq_zero.mp (Nat.eq_zero_of_not_pos hcur)
        have hnil : concatTexts ([] : List Segment) = [] := rfl
        rw [hnil, List.append_nil]
        rw [hc0, List.append_nil] at hinv
        rw [hinv, htake]
/-- C1 counterexample: the round-trip fails as stated — on the input
consisting of one backslash, `scan()` consumes the backslash as an
escape marker and emits no segment at all, so the concatenation of the
returned segment texts is empty. -/
theorem c1_counterexample :
    ¬ (∀ (text : List Char) (fuel : Nat) (segs : List Segment),
        scanLoop text fuel initState = some segs → concatTexts segs = text) := by
  intro h
  have hc := h ['\\'] 2 [] (by decide)
  exact absurd hc (by decide)

/-- C1 amended: for input text containing no backslash, whenever
`scan()` terminates without ever taking the unmatched-comment branch
(equivalently: no returned segment carries a null text), concatenating
the segment texts in order reproduces the input exactly.  Unescaped
backslashes are consumed by the escape toggle and dropped from the
emitted texts, so inputs containing them are not reproduced. -/
theorem c1_round_trip (text : List Char) (fuel : Nat) (segs : List Segment)
    (hnb : '\\' ∉ text) (hrun : scanLoop text fuel initState = some segs)
    (hnn : ∀ s ∈ segs, s.text ≠ none) : concatTexts segs = text :=
  scanLoop_concat text hnb fuel initState segs rfl hrun hnn

/-- C1 witness: the round-trip theorem applied to `a<!--b-->c`. -/
theorem c1_witness :
    concatTexts [⟨false, some ("a".toList)⟩, ⟨true, some ("<!--b-->".toList)⟩,
      ⟨false, some ("c".toList)⟩] = "a<!--b-->c".toList :=
  c1_round_trip ("a<!--b-->c".toList) 11
    [⟨false, some ("a".toList)⟩, ⟨true, some ("<!--b-->".toList)⟩, ⟨false, some ("c".toList)⟩]
    (by decide) (by decide) (by decide)
/-- C6: `transform()` on `<!-- plain text -->` returns the null result
(not an error) because no `@` follows the opening delimiter and leading
whitespace, and on `<!-- @button -->` returns the directive named
`button` with no properties. -/
theorem c6_directive_detection :
    transform ("<!-- plain text -->".toList) = Except.ok (none, 5) ∧
      transform ("<!-- @button -->".toList) = Except.ok (some ⟨"button".toList, []⟩, 16) := by
  constructor
  · simp only [transform, scanProps_eq_fuel]
    decide
  · simp only [transform, scanProps_eq_fuel]
    decide

/-- C7: in quoted property-value scanning an escape-initiating backslash
is consumed and never emitted, and the character after it is emitted
literally whatever it is; concretely the escaped-quote example parses to
the value `some "quoted" thing`. -/
theorem c7_escaped_value :
    (∀ (q : Char), q = '"' ∨ q = squote → ∀ (c : Char) (rest : List Char),
        scanValueChars q false ('\\' :: c :: rest) =
          (scanValueChars q false rest).map (fun p => (c :: p.1, p.2 + 2))) ∧
      transform ("<!-- @button prop=\"some \\\"quoted\\\" thing\" -->".toList) =
        Except.ok (some ⟨"button".toList,
          [("prop".toList, "some \"quoted\" thing".toList)]⟩, 45) := by
  constructor
  · intro q hq c rest
    have hne : ¬(('\\' : Char) = q ∧ (false : Bool) = false) := by
      rcases hq with rfl | rfl <;> decide
    rw [scanValueChars, if_neg hne, if_pos ⟨rfl, rfl⟩]
    rw [scanValueChars]
    rw [if_neg (fun h => absurd h.2 (by decide))]
    rw [if_neg (fun h => absurd h.2 (by decide))]
    cases scanValueChars q false rest <;> rfl
  · simp only [transform, scanProps_eq_fuel]
    decide

/-- C7 witness: the backslash-consumption equation at a concrete input. -/
theorem c7_witness :
    scanValueChars '"' false ['\\', 'x'] =
      (scanValueChars '"' false []).map (fun p => ('x' :: p.1, p.2 + 2)) :=
  c7_escaped_value.1 '"' (Or.inl rfl) 'x' []

/-- C8: a property value whose opening quote character never reappears
unescaped is unterminated — if the opening quote character does not occur
in the rest of the input at all, the value loop reaches end of input and
fails; the mismatched-quote-style example and the missing-quote example
fail with the same `UnterminatedValue` error. -/
theorem c8_unterminated_value :
    (∀ (q : Char) (esc : Bool) (l : List Char), q ∉ l → scanValueChars q esc l = none) ∧
      transform ("<!-- @button class=\"hi".toList ++ [squote] ++ " -->".toList) =
        Except.error TError.unterminatedValue ∧
      transform ("<!-- @button class=".toList ++ [squote] ++ "hi".toList) =
        Except.error TError.unterminatedValue := by
  refine ⟨fun q esc l => ?_, ?_, ?_⟩
  · induction l generalizing esc with
    | nil => intro _; rfl
    | cons c rest ih =>
      intro hnotin
      obtain ⟨hne, hnr⟩ := List.ne_and_not_mem_of_not_mem_cons hnotin
      rw [scanValueChars, if_neg (fun h => hne h.1.symm)]
      by_cases hb : c = '\\' ∧ esc = false
      · rw [if_pos hb, ih true hnr]
        rfl
      · rw [if_neg hb, ih false hnr]
        rfl
  · simp only [transform, scanProps_eq_fuel]
    decide
  · simp only [transform, scanProps_eq_fuel]
    decide

/-- C8 witness: the unterminated-value lemma at a concrete input. -/
theorem c8_witness : scanValueChars '"' false ['h', 'i'] = none :=
  c8_unterminated_value.1 '"' false ['h', 'i'] (by decide)

/-- C9 counterexample: after a failed `transform()` the parser state is
not clean — `templateData` is not null on the mid-properties failure
below, so a partially built directive is observable. -/
theorem c9_counterexample :
    ¬ (∀ text : List Char,
        (∃ e, transform text = Except.error e) → templateDataAfter text = none) := by
  intro h
  have hc := h ("<!-- @button a=\"1\" b -->".toList)
    ⟨TError.missingEquals, by simp only [transform, scanProps_eq_fuel]; decide⟩
  exact absurd hc (by simp only [templateDataAfter, scanProps_eq_fuel]; decide)

/-- C9 amended: a failure still aborts the whole call and returns no
directive, but the partially built directive — the name and the
properties scanned before the failure — remains observable through
`templateData`. -/
theorem c9_partial_template_data :
    transform ("<!-- @button a=\"1\" b -->".toList) = Except.error TError.missingEquals ∧
      templateDataAfter ("<!-- @button a=\"1\" b -->".toList) =
        some ⟨"button".toList, [("a".toList, "1".toList)]⟩ := by
  constructor
  · simp only [transform, scanProps_eq_fuel]
    decide
  · simp only [templateDataAfter, scanProps_eq_fuel]
    decide
theorem skipSpaceCount_le (l : List Char) : skipSpaceCount l ≤ l.length := by
  induction l with
  | nil => simp [skipSpaceCount]
  | cons c rest ih =>
    rw [skipSpaceCount]
    split
    · simpa using ih
    · simp

theorem skipSpaceCount_append (l j : List Char) (h : skipSpaceCount l < l.length) :
    skipSpaceCount (l ++ j) = skipSpaceCount l := by
  induction l with
  | nil => simp [skipSpaceCount] at h
  | cons c rest ih =>
    rw [List.cons_append, skipSpaceCount]
    rw [skipSpaceCount] at h ⊢
    split at h
    · rename_i hc
      rw [if_pos hc, if_pos hc]
      rw [ih (by simpa using h)]
    · rename_i hc
      rw [if_neg hc, if_neg hc]

theorem takeWhile_append_stable (p : Char → Bool) (l j : List Char)
    (h : (l.takeWhile p).length < l.length) :
    (l ++ j).takeWhile p = l.takeWhile p := by
  induction l with
  | nil => simp at h
  | cons c rest ih =>
    rw [List.cons_append, List.takeWhile_cons]
    rw [List.takeWhile_cons] at h ⊢
    split at h
    · rename_i hc
      rw [if_pos hc, if_pos hc]
      rw [ih (by simpa using h)]
    · rename_i hc
      rw [if_neg hc, if_neg hc]

theorem scanName_length_le (l : List Char) (nm : List Char) (h : scanName l = some nm) :
    nm.length ≤ l.length := by
  cases l with
  | nil => exact absurd h (by simp [scanName])
  | cons c rest =>
    rw [scanName] at h
    split at h
    · obtain rfl := Option.some.inj h
      have := (List.takeWhile_sublist nameChar (l := rest)).length_le
      simp
      omega
    · exact absurd h (by simp)

theorem scanName_append (l j : List Char) (nm : List Char)
    (h : scanName l = some nm) (hlt : nm.length < l.length) :
    scanName (l ++ j) = some nm := by
  cases l with
  | nil => exact absurd h (by simp [scanName])
  | cons c rest =>
    rw [scanName] at h
    split at h
    · rename_i hns
      obtain rfl := Option.some.inj h
      rw [List.cons_append, scanName, if_pos hns]
      simp only [List.length_cons] at hlt
      rw [takeWhile_append_stable nameChar rest j (by simpa using hlt)]
    · exact absurd h (by simp)

theorem scanValueChars_le (q : Char) (esc : Bool) (l : List Char) (v : List Char) (n : Nat)
    (h : scanValueChars q esc l = some (v, n)) : n ≤ l.length := by
  induction l generalizing esc v n with
  | nil => exact absurd h (by rw [scanValueChars]; simp)
  | cons c rest ih =>
    rw [scanValueChars] at h
    split at h
    · obtain rfl := (Prod.mk.injEq .. ▸ Option.some.inj h).2
      simp
    · split at h
      · cases hr : scanValueChars q true rest with
        | none => rw [hr] at h; simp at h
        | some p =>
          rw [hr] at h
          simp only [Option.map_some'] at h
          obtain rfl := (Prod.mk.injEq .. ▸ Option.some.inj h).2
          have := ih true p.1 p.2 (by rw [hr])
          simp
          omega
      · cases hr : scanValueChars q false rest with
        | none => rw [hr] at h; simp at h
        | some p =>
          rw [hr] at h
          simp only [Option.map_some'] at h
          obtain rfl := (Prod.mk.injEq .. ▸ Option.some.inj h).2
          have := ih false p.1 p.2 (by rw [hr])
          simp
          omega

theorem scanValueChars_append (q : Char) (esc : Bool) (l j : List Char)
    (v : List Char) (n : Nat) (h : scanValueChars q esc l = some (v, n)) :
    scanValueChars q esc (l ++ j) = some (v, n) := by
  induction l generalizing esc v n with
  | nil => exact absurd h (by rw [scanValueChars]; simp)
  | cons c rest ih =>
    rw [List.cons_append]
    rw [scanValueChars] at h ⊢
    split at h
    · rename_i hc
      rw [if_pos hc]
      exact h
    · rename_i hc
      rw [if_neg hc]
      split at h
      · rename_i hb
        rw [if_pos hb]
        cases hr : scanValueChars q true rest with
        | none => rw [hr] at h; simp at h
        | some p =>
          rw [hr] at h
          rw [ih true p.1 p.2 (by rw [hr])]
          exact h
      · rename_i hb
        rw [if_neg hb]
        cases hr : scanValueChars q false rest with
        | none => rw [hr] at h; simp at h
        | some p =>
          rw [hr] at h
          rw [ih false p.1 p.2 (by rw [hr])]
          exact h
theorem scanPropertyValue_le (l : List Char) (v : List Char) (n : Nat)
    (h : scanPropertyValue l = Except.ok (v, n)) : n ≤ l.length := by
  cases l with
  | nil => exact absurd h (by simp [scanPropertyValue])
  | cons q rest =>
    rw [scanPropertyValue] at h
    split at h
    · cases hr : scanValueChars q false rest with
      | none => rw [hr] at h; exact absurd h (by simp)
      | some p =>
        rw [hr] at h
        simp only [Except.ok.injEq, Prod.mk.injEq] at h
        have := scanValueChars_le q false rest p.1 p.2 (by rw [hr])
        simp only [List.length_cons]
        omega
    · exact absurd h (by simp)

theorem scanPropertyValue_append (l j : List Char) (v : List Char) (n : Nat)
    (h : scanPropertyValue l = Except.ok (v, n)) :
    scanPropertyValue (l ++ j) = Except.ok (v, n) := by
  cases l with
  | nil => exact absurd h (by simp [scanPropertyValue])
  | cons q rest =>
    rw [List.cons_append]
    rw [scanPropertyValue] at h ⊢
    split at h
    · rename_i hq
      rw [if_pos hq]
      cases hr : scanValueChars q false rest with
      | none => rw [hr] at h; exact absurd h (by simp)
      | some p =>
        rw [hr] at h
        rw [scanValueChars_append q false rest j p.1 p.2 (by rw [hr])]
        exact h
    · exact absurd h (by simp)
theorem scanProperty_append (l j : List Char) (pv : List Char × List Char) (n : Nat)
    (h : scanProperty l = Except.ok (pv, n)) :
    n ≤ l.length ∧ scanProperty (l ++ j) = Except.ok (pv, n) := by
  unfold scanProperty at h ⊢
  dsimp only at h ⊢
  cases hsn : scanName l with
  | none => rw [hsn] at h; exact absurd h (by simp)
  | some nm =>
    rw [hsn] at h
    dsimp only at h
    have hnm_le := scanName_length_le l nm hsn
    by_cases hnm_lt : nm.length < l.length
    case neg =>
      have hleq : nm.length = l.length := le_antisymm hnm_le (Nat.le_of_not_lt hnm_lt)
      have hl1 : l.drop nm.length = [] := by rw [hleq]; exact List.drop_length l
      rw [hl1] at h
      simp [skipSpaceCount] at h
    case pos =>
      rw [scanName_append l j nm hsn hnm_lt]
      dsimp only
      rw [List.drop_append_of_le_length hnm_le]
      by_cases hs1 : skipSpaceCount (l.drop nm.length) < (l.drop nm.length).length
      case neg =>
        have hs1e : skipSpaceCount (l.drop nm.length) = (l.drop nm.length).length :=
          le_antisymm (skipSpaceCount_le _) (Nat.le_of_not_lt hs1)
        have hl2 : (l.drop nm.length).drop (skipSpaceCount (l.drop nm.length)) = [] := by
          rw [hs1e]; exact List.drop_length _
        rw [hl2] at h
        exact absurd h (by simp)
      case pos =>
        rw [skipSpaceCount_append (l.drop nm.length) j hs1]
        rw [List.drop_append_of_le_length (le_of_lt hs1)]
        cases hl2 : (l.drop nm.length).drop (skipSpaceCount (l.drop nm.length)) with
        | nil => rw [hl2] at h; exact absurd h (by simp)
        | cons c l3 =>
          rw [hl2] at h
          simp only [List.cons_append]
          dsimp only at h ⊢
          by_cases hc : c = '='
          case neg =>
            rw [if_neg hc] at h
            exact absurd h (by simp)
          case pos =>
            rw [if_pos hc] at h ⊢
            by_cases hs2 : skipSpaceCount l3 < l3.length
            case neg =>
              have hs2e : skipSpaceCount l3 = l3.length :=
                le_antisymm (skipSpaceCount_le _) (Nat.le_of_not_lt hs2)
              have hl4 : l3.drop (skipSpaceCount l3) = [] := by
                rw [hs2e]; exact List.drop_length _
              rw [hl4] at h
              simp [scanPropertyValue] at h
            case pos =>
              rw [skipSpaceCount_append l3 j hs2]
              rw [List.drop_append_of_le_length (le_of_lt hs2)]
              cases hval : scanPropertyValue (l3.drop (skipSpaceCount l3)) with
              | error e => rw [hval] at h; exact absurd h (by simp)
              | ok vn =>
                obtain ⟨v, nv⟩ := vn
                rw [hval] at h
                rw [scanPropertyValue_append (l3.drop (skipSpaceCount l3)) j v nv hval]
                refine ⟨?_, h⟩
                simp only [Except.ok.injEq, Prod.mk.injEq] at h
                have hnv := scanPropertyValue_le _ _ _ hval
                have hlen1 : (l.drop nm.length).length = l.length - nm.length := by
                  simp
                have hlen2 : l3.length =
                    (l.drop nm.length).length - skipSpaceCount (l.drop nm.length) - 1 := by
                  have := congrArg List.length hl2
                  simp only [List.length_drop, List.length_cons] at this
                  omega
                simp only [List.length_drop] at hnv
                omega
theorem scanProps_append_bounded (N : Nat) :
    ∀ (l j : List Char) (props : List (List Char × List Char)) (m : Nat),
      l.length ≤ N →
      scanProps l = (props, m, none) →
      (l.drop m).take 3 = "-->".toList →
      m + 3 ≤ l.length ∧ scanProps (l ++ j) = (props, m, none) := by
  induction N with
  | zero =>
    intro l j props m hN h hclose
    have hl : l = [] := List.eq_nil_of_length_eq_zero (Nat.le_zero.mp hN)
    subst hl
    rw [scanProps, dif_pos (Or.inr rfl)] at h
    simp only [Prod.mk.injEq] at h
    obtain ⟨hp, hm, -⟩ := h
    subst hp
    subst hm
    simp at hclose
  | succ N ih =>
    intro l j props m hN h hclose
    rw [scanProps] at h
    by_cases hg : l.take 3 = "-->".toList ∨ l = []
    · rw [dif_pos hg] at h
      simp only [Prod.mk.injEq] at h
      obtain ⟨hp, hm, -⟩ := h
      subst hp
      subst hm
      rcases hg with h3 | rfl
      · have hlen3 : 3 ≤ l.length := by
          have h3l : (l.take 3).length = 3 := by rw [h3]; rfl
          simp only [List.length_take] at h3l
          omega
        refine ⟨by omega, ?_⟩
        rw [scanProps, dif_pos (Or.inl (by rw [List.take_append_of_le_length hlen3, h3]))]
      · simp at hclose
    · rw [dif_neg hg] at h
      have hlne : l ≠ [] := fun hx => hg (Or.inr hx)
      have hlpos : 0 < l.length := List.length_pos.mpr hlne
      cases hp : scanProperty l with
      | error e =>
        rw [hp] at h
        exact absurd h (by simp)
      | ok pvn =>
        obtain ⟨pv, n⟩ := pvn
        rw [hp] at h
        dsimp only at h
        rcases hsp : scanProps (l.drop (n + skipSpaceCount (l.drop n))) with ⟨props2, m2, e2⟩
        rw [hsp] at h
        simp only [Prod.mk.injEq] at h
        obtain ⟨hprops, hm, herr⟩ := h
        subst herr
        have hnpos := scanProperty_consumed_pos l pv n hp
        obtain ⟨hnle, hpapp⟩ := scanProperty_append l j pv n hp
        have hclose2 : ((l.drop (n + skipSpaceCount (l.drop n))).drop m2).take 3 =
            "-->".toList := by
          rw [List.drop_drop]
          rw [show n + skipSpaceCount (l.drop n) + m2 = m by omega]
          exact hclose
        have hlen2 : (l.drop (n + skipSpaceCount (l.drop n))).length ≤ N := by
          simp only [List.length_drop]
          omega
        obtain ⟨hm3, happ⟩ := ih (l.drop (n + skipSpaceCount (l.drop n))) j props2 m2
          hlen2 hsp hclose2
        simp only [List.length_drop] at hm3
        have hs_lt : skipSpaceCount (l.drop n) < (l.drop n).length := by
          by_contra hsc
          have hse : skipSpaceCount (l.drop n) = (l.drop n).length :=
            le_antisymm (skipSpaceCount_le _) (Nat.le_of_not_lt hsc)
          have hnil : l.drop (n + skipSpaceCount (l.drop n)) = [] := by
            have : l.length ≤ n + skipSpaceCount (l.drop n) := by
              simp only [List.length_drop] at hse
              omega
            exact List.drop_eq_nil_of_le this
          rw [hnil] at hclose2
          simp at hclose2
        refine ⟨by omega, ?_⟩
        rw [scanProps]
        have hgj : ¬((l ++ j).take 3 = "-->".toList ∨ l ++ j = []) := by
          rintro (h3 | hnil)
          · rw [List.take_append_of_le_length (by omega)] at h3
            exact hg (Or.inl h3)
          · exact hlne (List.append_eq_nil.mp hnil).1
        rw [dif_neg hgj, hpapp]
        dsimp only
        rw [List.drop_append_of_le_length hnle]
        rw [skipSpaceCount_append (l.drop n) j hs_lt]
        have hns_le : n + skipSpaceCount (l.drop n) ≤ l.length := by
          simp only [List.length_drop] at hs_lt
          omega
        rw [List.drop_append_of_le_length hns_le, happ]
        simp only [Prod.mk.injEq]
        exact ⟨hprops, hm, trivial⟩

/-- Stability of the property loop under appended text: a successful
loop that ends at a literal close delimiter is unaffected by whatever
follows the input it consumed. -/
theorem scanProps_append (l j : List Char) (props : List (List Char × List Char)) (m : Nat)
    (h : scanProps l = (props, m, none))
    (hclose : (l.drop m).take 3 = "-->".toList) :
    m + 3 ≤ l.length ∧ scanProps (l ++ j) = (props, m, none) :=
  scanProps_append_bounded l.length l j props m le_rfl h hclose
theorem transform_append (t junk : List Char) (d : Directive) (p : Nat)
    (h : transform t = Except.ok (some d, p)) :
    transform (t ++ junk) = Except.ok (some d, p) := by
  unfold transform at h ⊢
  by_cases h4 : t.take 4 = "<!--".toList
  case neg =>
    rw [if_neg h4] at h
    exact absurd h (by simp)
  case pos =>
    rw [if_pos h4] at h
    have hlen4 : 4 ≤ t.length := by
      have h4l : (t.take 4).length = 4 := by rw [h4]; rfl
      simp only [List.length_take] at h4l
      omega
    rw [if_pos (by rw [List.take_append_of_le_length hlen4]; exact h4)]
    dsimp only at h ⊢
    by_cases hs0 : skipSpaceCount (t.drop 4) < (t.drop 4).length
    case neg =>
      have hs0e : skipSpaceCount (t.drop 4) = (t.drop 4).length :=
        le_antisymm (skipSpaceCount_le _) (Nat.le_of_not_lt hs0)
      have hdp1 : t.drop (4 + skipSpaceCount (t.drop 4)) = [] := by
        apply List.drop_eq_nil_of_le
        simp only [List.length_drop] at hs0e
        omega
      rw [hdp1] at h
      exact absurd h (by simp)
    case pos =>
      rw [List.drop_append_of_le_length hlen4, skipSpaceCount_append _ junk hs0]
      have hp1le : 4 + skipSpaceCount (t.drop 4) ≤ t.length := by
        simp only [List.length_drop] at hs0
        omega
      rw [List.drop_append_of_le_length hp1le]
      cases hd1 : t.drop (4 + skipSpaceCount (t.drop 4)) with
      | nil => rw [hd1] at h; exact absurd h (by simp)
      | cons c rest =>
        rw [hd1] at h
        simp only [List.cons_append]
        dsimp only at h ⊢
        by_cases hc : c = '@'
        case neg =>
          rw [if_neg hc] at h
          exact absurd h (by simp)
        case pos =>
          rw [if_pos hc] at h ⊢
          cases hsn : scanName (t.drop (4 + skipSpaceCount (t.drop 4) + 1)) with
          | none => rw [hsn] at h; exact absurd h (by simp)
          | some nm =>
            rw [hsn] at h
            dsimp only at h
            by_cases heos : t.length ≤ 4 + skipSpaceCount (t.drop 4) + 1 + nm.length +
                skipSpaceCount (t.drop (4 + skipSpaceCount (t.drop 4) + 1 + nm.length))
            case pos =>
              rw [if_pos heos] at h
              exact absurd h (by simp)
            case neg =>
              rw [if_neg heos] at h
              have hp1lt : 4 + skipSpaceCount (t.drop 4) < t.length := by
                have hd1l := congrArg List.length hd1
                simp only [List.length_drop, List.length_cons] at hd1l
                omega
              have hp2le : 4 + skipSpaceCount (t.drop 4) + 1 + nm.length ≤ t.length := by
                omega
              have hnm_lt : nm.length < (t.drop (4 + skipSpaceCount (t.drop 4) + 1)).length := by
                simp only [List.length_drop]
                omega
              have hs1_lt : skipSpaceCount
                  (t.drop (4 + skipSpaceCount (t.drop 4) + 1 + nm.length)) <
                    (t.drop (4 + skipSpaceCount (t.drop 4) + 1 + nm.length)).length := by
                simp only [List.length_drop]
                have hle := skipSpaceCount_le
                  (t.drop (4 + skipSpaceCount (t.drop 4) + 1 + nm.length))
                simp only [List.length_drop] at hle
                omega
              have hp1le1 : 4 + skipSpaceCount (t.drop 4) + 1 ≤ t.length := by omega
              rw [List.drop_append_of_le_length hp1le1]
              rw [scanName_append _ junk nm hsn hnm_lt]
              dsimp only
              rw [List.drop_append_of_le_length hp2le]
              rw [skipSpaceCount_append _ junk hs1_lt]
              have hp3le : 4 + skipSpaceCount (t.drop 4) + 1 + nm.length +
                  skipSpaceCount (t.drop (4 + skipSpaceCount (t.drop 4) + 1 + nm.length)) ≤
                    t.length := by omega
              rw [if_neg (by simp only [List.length_append]; omega)]
              rw [List.drop_append_of_le_length hp3le]
              rcases hscan : scanProps (t.drop (4 + skipSpaceCount (t.drop 4) + 1 + nm.length +
                  skipSpaceCount (t.drop (4 + skipSpaceCount (t.drop 4) + 1 + nm.length)))) with
                ⟨props2, m2, e2⟩
              rw [hscan] at h
              cases e2 with
              | some e => exact absurd h (by simp)
              | none =>
                dsimp only at h
                by_cases hcl : ((t.drop (4 + skipSpaceCount (t.drop 4) + 1 + nm.length +
                    skipSpaceCount (t.drop (4 + skipSpaceCount (t.drop 4) + 1 +
                      nm.length)))).drop m2).take 3 = "-->".toList
                case neg =>
                  rw [List.drop_drop] at hcl
                  rw [if_neg hcl] at h
                  exact absurd h (by simp)
                case pos =>
                  obtain ⟨hm3, happ⟩ := scanProps_append _ junk props2 m2 hscan hcl
                  rw [happ]
                  dsimp only
                  rw [List.drop_drop] at hcl
                  rw [if_pos hcl] at h
                  simp only [List.length_drop] at hm3
                  have hp4le : 4 + skipSpaceCount (t.drop 4) + 1 + nm.length +
                      skipSpaceCount (t.drop (4 + skipSpaceCount (t.drop 4) + 1 + nm.length)) +
                        m2 ≤ t.length := by omega
                  rw [List.drop_append_of_le_length hp4le]
                  rw [List.take_append_of_le_length (by simp only [List.length_drop]; omega)]
                  rw [if_pos hcl]
                  exact h
/-- C10: once a `transform()` run succeeds with a directive, whatever
characters follow the input are ignored — appending arbitrary junk
leaves the result and the final cursor position unchanged; concretely,
on `<!-- @button -->zzz` the cursor stops at 16 (three characters past
the close delimiter), not at the end of the 19-character input. -/
theorem c10_trailing_text_ignored :
    (∀ (t junk : List Char) (d : Directive) (p : Nat),
        transform t = Except.ok (some d, p) →
        transform (t ++ junk) = Except.ok (some d, p)) ∧
      transform ("<!-- @button -->zzz".toList) = Except.ok (some ⟨"button".toList, []⟩, 16) ∧
      (16 : Nat) < "<!-- @button -->zzz".toList.length := by
  refine ⟨transform_append, ?_, by decide⟩
  simp only [transform, scanProps_eq_fuel]
  decide

/-- C10 witness: the stability conjunct applied to `<!-- @button -->`
with trailing `z`. -/
theorem c10_witness :
    transform ("<!-- @button -->".toList ++ "z".toList) =
      Except.ok (some ⟨"button".toList, []⟩, 16) :=
  c10_trailing_text_ignored.1 ("<!-- @button -->".toList) "z".toList ⟨"button".toList, []⟩ 16
    (by simp only [transform, scanProps_eq_fuel]; decide)
end Ovus

